import Mathlib

/-!
Shallow embedding of the reverse-DNS cache core of the datadog-agent
network tracer (`reverseDNSCache`, `dnsCacheVal`, `translation`,
`SocketFilterSnooper.pollStats`), with theorems checking the
natural-language specification against the code.

Go maps are modelled as association lists with distinct keys; `time.Time`
and `time.Duration` values are modelled by their whole-second (`Unix`)
values as integers; a nil pointer argument is modelled by `Option`.
-/

namespace DnsCache

/-- A Go `string` value. The code uses only decidable equality and the
total lexicographic order on strings (`sort.Strings`, `sort.SearchStrings`,
map keys), so string values are modelled by a countable decidable linear
order; `Nat` keeps every definition kernel-evaluable. -/
abbrev GoString := Nat

/-- `util.Address`: an IP address value, used as the cache key
(value-based equality). -/
abbrev Address := GoString

/-- `dnsCacheVal`: per-address record of resolved names and an absolute
expiration instant (Unix seconds). -/
structure dnsCacheVal where
  names : List GoString
  expiration : Int
deriving DecidableEq, Repr

/-- `translation`: one decoded DNS response, a queried name plus the set of
addresses it resolves to (a Go map, so the addresses are distinct). -/
structure translation where
  name : GoString
  ips : List Address
deriving DecidableEq, Repr

/-- `ConnectionStats` (the fields `Get` uses): a flow with a source and a
destination address. -/
structure ConnectionStats where
  Source : Address
  Dest : Address
deriving DecidableEq, Repr

/-- `NamePair`: per-connection lookup result; `none` models a nil slice
(miss), `some l` the copied name list of a hit. -/
structure NamePair where
  Source : Option (List GoString)
  Dest : Option (List GoString)
deriving DecidableEq, Repr

/-- `reverseDNSCache`: the map `data`, the configured `ttl` and capacity
`size`, and the `lookups`/`resolved` telemetry counters. -/
structure reverseDNSCache where
  data : List (Address × dnsCacheVal)
  ttl : Int
  size : Nat
  lookups : Int
  resolved : Int
deriving DecidableEq, Repr

/-- Go map read `val, ok := data[addr]`: first binding of the key. -/
def findVal : List (Address × dnsCacheVal) → Address → Option dnsCacheVal
  | [], _ => none
  | (a, v) :: rest, x => if a = x then some v else findVal rest x

/-- Go map write `data[addr] = val`: replace the binding if present,
otherwise add one. -/
def updateVal : List (Address × dnsCacheVal) → Address → dnsCacheVal →
    List (Address × dnsCacheVal)
  | [], a, v => [(a, v)]
  | (a', v') :: rest, a, v =>
    if a' = a then (a, v) :: rest else (a', v') :: updateVal rest a v

/-- The loop of Go's `sort.Search` (binary search for the least index in
`[i, j)` satisfying the predicate), with explicit fuel; the predicate is
`sort.SearchStrings`'s `names[h] >= name`, so the recursion advances past
`h` exactly when `names[h] < name`. -/
def searchLoop (names : List GoString) (name : GoString) : Nat → Nat → Nat → Nat
  | 0, i, _ => i
  | fuel + 1, i, j =>
    if i < j then
      let h := (i + j) / 2
      if names.getD h 0 < name then searchLoop names name fuel (h + 1) j
      else searchLoop names name fuel i h
    else i

/-- `sort.SearchStrings(v.names, name)`. -/
def searchStrings (names : List GoString) (name : GoString) : Nat :=
  searchLoop names name (names.length + 1) 0 names.length

/-- `sort.Strings`: sort in increasing order. -/
def sortStrings (names : List GoString) : List GoString :=
  names.insertionSort (· ≤ ·)

/-- `dnsCacheVal.merge`: return unchanged when the binary-search index is
below the length (the code's membership test), otherwise append the name
and re-sort. -/
def dnsCacheVal.merge (v : dnsCacheVal) (name : GoString) : dnsCacheVal :=
  if searchStrings v.names name < v.names.length then v
  else { v with names := sortStrings (v.names ++ [name]) }

/-- `dnsCacheVal.copy`: a fresh slice with the same elements; in the pure
model this is the list itself. -/
def dnsCacheVal.copy (v : dnsCacheVal) : List GoString :=
  v.names

/-- The body of `Add`'s loop for one address `addr` of the translation:
refresh-and-merge when present, create `{names: [name], expiration: exp}`
when absent. -/
def addAddr (name : GoString) (exp : Int) (data : List (Address × dnsCacheVal))
    (addr : Address) : List (Address × dnsCacheVal) :=
  match findVal data addr with
  | some val => updateVal data addr ((dnsCacheVal.mk val.names exp).merge name)
  | none => updateVal data addr ⟨[name], exp⟩

/-- `reverseDNSCache.Add`: nil translation or a full cache is rejected
outright; otherwise every address of the translation is stored or
refreshed with expiration `now + ttl` and the call returns true. -/
def reverseDNSCache.Add (c : reverseDNSCache) (t : Option translation)
    (now : Int) : reverseDNSCache × Bool :=
  match t with
  | none => (c, false)
  | some t =>
    if c.data.length ≥ c.size then (c, false)
    else
      let exp := now + c.ttl
      ({ c with data := t.ips.foldl (addAddr t.name exp) c.data }, true)

/-- `reverseDNSCache.getNamesForIP`: a miss returns nil and leaves the map
alone; a hit refreshes the entry's expiration and returns a copy of its
names. -/
def getNamesForIP (data : List (Address × dnsCacheVal)) (ip : Address)
    (expiration : Int) : Option (List GoString) × List (Address × dnsCacheVal) :=
  match findVal data ip with
  | none => (none, data)
  | some val =>
    (some (dnsCacheVal.copy val), updateVal data ip ⟨val.names, expiration⟩)

/-- The loop of `Get` over the connections: one `NamePair` per connection,
threading the map through the per-side lookups, counting a resolution when
the destination side hit. -/
def getLoop (expiration : Int) :
    List ConnectionStats → List (Address × dnsCacheVal) →
    List NamePair × List (Address × dnsCacheVal) × Nat
  | [], data => ([], data, 0)
  | conn :: rest, data =>
    let src := getNamesForIP data conn.Source expiration
    let dst := getNamesForIP src.2 conn.Dest expiration
    let next := getLoop expiration rest dst.2
    (⟨src.1, dst.1⟩ :: next.1, next.2.1,
      (if dst.1.isSome then 1 else 0) + next.2.2)

/-- `reverseDNSCache.Get`: an empty input returns nil at once; otherwise
one pair per connection with expiration refreshes at `now + ttl`, and the
`lookups`/`resolved` counters accumulate the batch's counts. -/
def reverseDNSCache.Get (c : reverseDNSCache) (conns : List ConnectionStats)
    (now : Int) : List NamePair × reverseDNSCache :=
  match conns with
  | [] => ([], c)
  | _ =>
    let expiration := now + c.ttl
    let r := getLoop expiration conns c.data
    (r.1, { c with data := r.2.1,
                   lookups := c.lookups + conns.length,
                   resolved := c.resolved + r.2.2 })

/-- `reverseDNSCache.expire`: the sweep at time `now` deletes every entry
whose stored expiration is at most `now - ttl`. -/
def reverseDNSCache.expire (c : reverseDNSCache) (now : Int) :
    reverseDNSCache :=
  { c with data := c.data.filter (fun p => p.2.expiration > now - c.ttl) }

/-- Whether a connection mentions the address `x` as its source or its
destination (the condition under which `Get` touches `x`'s entry). -/
def touchesAddr (conn : ConnectionStats) (x : Address) : Bool :=
  conn.Source == x || conn.Dest == x

/-- The effect of one iteration of `Add`'s loop on the binding of its own
address: a fresh entry when absent, refresh-and-merge when present. -/
def addStep (name : GoString) (exp : Int) : Option dnsCacheVal → dnsCacheVal
  | none => ⟨[name], exp⟩
  | some val => (dnsCacheVal.mk val.names exp).merge name

/-- The name-list invariant of the cache: every stored entry's name list is
strictly sorted (sorted and duplicate-free), as the spec's data-model
section states. -/
def GoodData (d : List (Address × dnsCacheVal)) : Prop :=
  ∀ a v, findVal d a = some v → v.names.Sorted (· < ·)

/-- The fields of `packetSource.Stats()`'s result that `pollStats` reads:
cumulative poll and packet counts. -/
structure sourceStatsData where
  Polls : Int
  Packets : Int
deriving DecidableEq, Repr

/-- The fields of `packetSource.SocketStats()`'s result that `pollStats`
reads: cumulative kernel capture and drop counts. -/
structure socketStatsData where
  Packets : Int
  Drops : Int
deriving DecidableEq, Repr

/-- The state `SocketFilterSnooper.pollStats` maintains: the accumulated
telemetry counters (atomics on the snooper) and the previous-sample
baselines (the loop's local `prev*` variables). -/
structure snooperStatsState where
  polls : Int
  processed : Int
  captured : Int
  dropped : Int
  prevPolls : Int
  prevProcessed : Int
  prevCaptured : Int
  prevDropped : Int
deriving DecidableEq, Repr

/-- One tick of `SocketFilterSnooper.pollStats`: `none` models
`SocketStats()` returning an error, in which case the iteration logs and
`continue`s without touching counters or baselines; on success each
counter accumulates the delta against the stored baseline and the
baselines are set to the new sample. -/
def pollStatsTick (st : snooperStatsState) (sourceStats : sourceStatsData)
    (socketStats : Option socketStatsData) : snooperStatsState :=
  match socketStats with
  | none => st
  | some ss =>
    { polls := st.polls + (sourceStats.Polls - st.prevPolls),
      processed := st.processed + (sourceStats.Packets - st.prevProcessed),
      captured := st.captured + (ss.Packets - st.prevCaptured),
      dropped := st.dropped + (ss.Drops - st.prevDropped),
      prevPolls := sourceStats.Polls,
      prevProcessed := sourceStats.Packets,
      prevCaptured := ss.Packets,
      prevDropped := ss.Drops }

/-! ### Map lemmas: `findVal` after `updateVal` and after `List.filter` -/

theorem findVal_updateVal_self (d : List (Address × dnsCacheVal)) (a : Address)
    (v : dnsCacheVal) : findVal (updateVal d a v) a = some v := by
  induction d with
  | nil => simp [updateVal, findVal]
  | cons p rest ih =>
    obtain ⟨a1, v1⟩ := p
    by_cases h : a1 = a
    · subst h
      simp [updateVal, findVal]
    · simp [updateVal, findVal, h, ih]

theorem findVal_updateVal_ne (d : List (Address × dnsCacheVal))
    {a x : Address} (v : dnsCacheVal) (h : x ≠ a) :
    findVal (updateVal d a v) x = findVal d x := by
  induction d with
  | nil => simp [updateVal, findVal, Ne.symm h]
  | cons p rest ih =>
    obtain ⟨a1, v1⟩ := p
    by_cases h1 : a1 = a
    · subst h1
      simp [updateVal, findVal, Ne.symm h]
    · by_cases h2 : a1 = x <;> simp [updateVal, findVal, h1, h2, ih, h]

theorem findVal_eq_none_of_not_mem (d : List (Address × dnsCacheVal))
    {x : Address} (h : x ∉ d.map Prod.fst) : findVal d x = none := by
  induction d with
  | nil => rfl
  | cons p rest ih =>
    obtain ⟨a1, v1⟩ := p
    simp only [List.map_cons, List.mem_cons] at h
    push_neg at h
    simp [findVal, Ne.symm h.1, ih h.2]

theorem findVal_filter (d : List (Address × dnsCacheVal))
    (p : Address × dnsCacheVal → Bool) {x : Address} {v : dnsCacheVal}
    (hk : (d.map Prod.fst).Nodup) (h : findVal d x = some v) :
    findVal (d.filter p) x = if p (x, v) then some v else none := by
  induction d with
  | nil => simp [findVal] at h
  | cons q rest ih =>
    obtain ⟨a1, v1⟩ := q
    simp only [List.map_cons, List.nodup_cons] at hk
    by_cases h1 : a1 = x
    · subst h1
      simp [findVal] at h
      subst h
      by_cases hp : p (a1, v1) = true
      · simp [List.filter_cons, hp, findVal]
      · rw [List.filter_cons, if_neg hp, if_neg hp]
        exact findVal_eq_none_of_not_mem _ fun hm =>
          hk.1 (List.map_subset Prod.fst (List.filter_subset' rest) hm)
    · simp only [findVal, if_neg h1] at h
      rw [List.filter_cons]
      by_cases hp : p (a1, v1) = true
      · rw [if_pos hp]
        simp only [findVal, if_neg h1]
        exact ih hk.2 h
      · rw [if_neg hp]
        exact ih hk.2 h

/-! ### `getNamesForIP` and `getLoop` lemmas -/

theorem getNamesForIP_fst (d : List (Address × dnsCacheVal)) (ip : Address)
    (e : Int) :
    (getNamesForIP d ip e).1 = (findVal d ip).map dnsCacheVal.names := by
  cases h : findVal d ip <;> simp [getNamesForIP, h, dnsCacheVal.copy]

theorem findVal_getNamesForIP (d : List (Address × dnsCacheVal)) (ip : Address)
    (e : Int) (x : Address) :
    findVal (getNamesForIP d ip e).2 x =
      if x = ip then (findVal d ip).map (fun v => dnsCacheVal.mk v.names e)
      else findVal d x := by
  cases h : findVal d ip with
  | none =>
    by_cases hx : x = ip
    · subst hx
      simp [getNamesForIP, h]
    · simp [getNamesForIP, h, hx]
  | some v =>
    by_cases hx : x = ip
    · subst hx
      simp [getNamesForIP, h, findVal_updateVal_self]
    · simp [getNamesForIP, h, hx, findVal_updateVal_ne _ _ hx]

theorem findVal_getNamesForIP_names (d : List (Address × dnsCacheVal))
    (ip : Address) (e : Int) (x : Address) :
    (findVal (getNamesForIP d ip e).2 x).map dnsCacheVal.names =
      (findVal d x).map dnsCacheVal.names := by
  rw [findVal_getNamesForIP]
  by_cases hx : x = ip
  · rw [if_pos hx, hx]
    cases findVal d ip <;> simp
  · simp [hx]

theorem findVal_getNamesForIP_isSome (d : List (Address × dnsCacheVal))
    (ip : Address) (e : Int) (x : Address) :
    (findVal (getNamesForIP d ip e).2 x).isSome = (findVal d x).isSome := by
  rw [findVal_getNamesForIP]
  by_cases hx : x = ip
  · rw [if_pos hx, hx]
    cases findVal d ip <;> simp
  · simp [hx]

theorem findVal_two_step (d : List (Address × dnsCacheVal))
    (conn : ConnectionStats) (e : Int) (x : Address) :
    findVal (getNamesForIP (getNamesForIP d conn.Source e).2 conn.Dest e).2 x =
      if touchesAddr conn x then
        (findVal d x).map (fun v => dnsCacheVal.mk v.names e)
      else findVal d x := by
  have hrr : ∀ o : Option dnsCacheVal,
      Option.map (fun v => dnsCacheVal.mk v.names e)
          (Option.map (fun v => dnsCacheVal.mk v.names e) o) =
        Option.map (fun v => dnsCacheVal.mk v.names e) o := by
    intro o
    cases o <;> rfl
  simp only [findVal_getNamesForIP]
  by_cases hd : x = conn.Dest
  · have ht : touchesAddr conn x = true := by
      simp [touchesAddr, hd]
    rw [if_pos hd, if_pos ht, hd]
    by_cases hs : conn.Dest = conn.Source
    · rw [if_pos hs, hrr, hs]
    · rw [if_neg hs]
  · rw [if_neg hd]
    by_cases hs : x = conn.Source
    · have ht : touchesAddr conn x = true := by
        simp [touchesAddr, hs]
      rw [if_pos hs, if_pos ht, hs]
    · have ht : touchesAddr conn x = false := by
        simp only [touchesAddr, Bool.or_eq_false_iff, beq_eq_false_iff_ne]
        exact ⟨fun h => hs h.symm, fun h => hd h.symm⟩
      rw [if_neg hs, ht]
      simp

theorem findVal_names_two (d : List (Address × dnsCacheVal))
    (conn : ConnectionStats) (e : Int) (x : Address) :
    (findVal (getNamesForIP (getNamesForIP d conn.Source e).2 conn.Dest e).2
        x).map dnsCacheVal.names = (findVal d x).map dnsCacheVal.names := by
  rw [findVal_getNamesForIP_names, findVal_getNamesForIP_names]

theorem findVal_isSome_two (d : List (Address × dnsCacheVal))
    (conn : ConnectionStats) (e : Int) (x : Address) :
    (findVal (getNamesForIP (getNamesForIP d conn.Source e).2 conn.Dest e).2
        x).isSome = (findVal d x).isSome := by
  rw [findVal_getNamesForIP_isSome, findVal_getNamesForIP_isSome]

theorem getLoop_pairs (e : Int) (conns : List ConnectionStats)
    (d : List (Address × dnsCacheVal)) :
    (getLoop e conns d).1 = conns.map (fun conn =>
      NamePair.mk ((findVal d conn.Source).map dnsCacheVal.names)
        ((findVal d conn.Dest).map dnsCacheVal.names)) := by
  induction conns generalizing d with
  | nil => rfl
  | cons conn rest ih =>
    simp only [getLoop, List.map_cons, List.cons.injEq]
    refine ⟨?_, ?_⟩
    · simp [getNamesForIP_fst, findVal_getNamesForIP_names]
    · rw [ih]
      apply List.map_congr_left
      intro c _
      simp only [findVal_names_two]

theorem getLoop_resolved (e : Int) (conns : List ConnectionStats)
    (d : List (Address × dnsCacheVal)) :
    (getLoop e conns d).2.2 =
      conns.countP (fun conn => (findVal d conn.Dest).isSome) := by
  induction conns generalizing d with
  | nil => rfl
  | cons conn rest ih =>
    simp only [getLoop, List.countP_cons, ih]
    have hq : List.countP (fun c =>
          (findVal (getNamesForIP (getNamesForIP d conn.Source e).2 conn.Dest
            e).2 c.Dest).isSome) rest =
        List.countP (fun c => (findVal d c.Dest).isSome) rest :=
      List.countP_congr (fun c _ => by rw [findVal_isSome_two])
    rw [hq]
    simp [getNamesForIP_fst, findVal_getNamesForIP_isSome]
    omega

theorem getLoop_findVal (e : Int) (conns : List ConnectionStats)
    (d : List (Address × dnsCacheVal)) (x : Address) :
    findVal (getLoop e conns d).2.1 x =
      if conns.any (fun conn => touchesAddr conn x) then
        (findVal d x).map (fun v => dnsCacheVal.mk v.names e)
      else findVal d x := by
  induction conns generalizing d with
  | nil => rfl
  | cons conn rest ih =>
    simp only [getLoop, List.any_cons, ih, findVal_two_step]
    by_cases h1 : touchesAddr conn x <;>
      by_cases h2 : rest.any (fun c => touchesAddr c x) <;>
        simp [h1, h2] <;> cases findVal d x <;> simp

/-! ### Binary search (`sort.Search` / `sort.SearchStrings`) lemmas -/

theorem getD_eq_get (l : List GoString) (k : Nat) (h : k < l.length) :
    l.getD k 0 = l.get ⟨k, h⟩ := by
  simp [List.getD_eq_getElem?_getD, List.getElem?_eq_getElem h]

theorem searchLoop_le (names : List GoString) (name : GoString) :
    ∀ (fuel i j : Nat), i ≤ j → searchLoop names name fuel i j ≤ j := by
  intro fuel
  induction fuel with
  | zero => intro i j h; exact h
  | succ fuel ih =>
    intro i j h
    simp only [searchLoop]
    by_cases hij : i < j
    · rw [if_pos hij]
      by_cases hlt : names.getD ((i + j) / 2) 0 < name
      · rw [if_pos hlt]
        exact ih _ _ (by omega)
      · rw [if_neg hlt]
        exact le_trans (ih _ _ (by omega)) (by omega)
    · rw [if_neg hij]
      exact h

theorem searchLoop_inv (names : List GoString) (name : GoString)
    (hs : names.Sorted (· ≤ ·)) :
    ∀ (fuel i j : Nat), j ≤ names.length →
      (∀ k, k < i → names.getD k 0 < name) →
      ∀ k, k < searchLoop names name fuel i j → names.getD k 0 < name := by
  intro fuel
  induction fuel with
  | zero => intro i j _ hinv k hk; exact hinv k hk
  | succ fuel ih =>
    intro i j hj hinv
    simp only [searchLoop]
    by_cases hij : i < j
    · rw [if_pos hij]
      by_cases hlt : names.getD ((i + j) / 2) 0 < name
      · rw [if_pos hlt]
        refine ih _ _ hj ?_
        intro k hk
        by_cases hki : k < i
        · exact hinv k hki
        · have hklen : k < names.length := by omega
          have hmlen : (i + j) / 2 < names.length := by omega
          rcases eq_or_lt_of_le (show k ≤ (i + j) / 2 by omega) with heq | hlt2
          · rw [heq]
            exact hlt
          · have hrel := List.Sorted.rel_get_of_lt hs
              (a := ⟨k, hklen⟩) (b := ⟨(i + j) / 2, hmlen⟩) (by simpa using hlt2)
            rw [getD_eq_get names k hklen]
            rw [getD_eq_get names _ hmlen] at hlt
            exact lt_of_le_of_lt hrel hlt
      · rw [if_neg hlt]
        exact ih _ _ (le_trans (by omega) hj) hinv
    · rw [if_neg hij]
      intro k hk
      exact hinv k hk

theorem searchStrings_le (names : List GoString) (name : GoString) :
    searchStrings names name ≤ names.length :=
  searchLoop_le names name _ 0 names.length (Nat.zero_le _)

theorem searchStrings_all_lt {names : List GoString} {name : GoString}
    (hs : names.Sorted (· ≤ ·))
    (h : names.length ≤ searchStrings names name) :
    ∀ x ∈ names, x < name := by
  intro x hx
  obtain ⟨⟨k, hk⟩, rfl⟩ := List.mem_iff_get.mp hx
  have hres := searchLoop_inv names name hs (names.length + 1) 0 names.length
    (le_refl _) (fun k hk => absurd hk (Nat.not_lt_zero k)) k
    (lt_of_lt_of_le hk h)
  rwa [getD_eq_get _ _ hk] at hres

theorem searchStrings_lt_of_mem {names : List GoString} {name : GoString}
    (hs : names.Sorted (· ≤ ·)) (hm : name ∈ names) :
    searchStrings names name < names.length := by
  by_contra h
  push_neg at h
  exact lt_irrefl name (searchStrings_all_lt hs h name hm)

/-! ### `dnsCacheVal.merge` lemmas -/

theorem merge_eq_self (v : dnsCacheVal) (name : GoString)
    (h : searchStrings v.names name < v.names.length) : v.merge name = v := by
  rw [dnsCacheVal.merge, if_pos h]

theorem merge_of_mem {v : dnsCacheVal} {name : GoString}
    (hs : v.names.Sorted (· ≤ ·)) (hm : name ∈ v.names) : v.merge name = v :=
  merge_eq_self v name (searchStrings_lt_of_mem hs hm)

theorem merge_names_append {v : dnsCacheVal} {name : GoString}
    (hs : v.names.Sorted (· ≤ ·))
    (hge : v.names.length ≤ searchStrings v.names name) :
    (v.merge name).names = v.names ++ [name] ∧ ∀ x ∈ v.names, x < name := by
  have hall : ∀ x ∈ v.names, x < name := searchStrings_all_lt hs hge
  have happ : (v.names ++ [name]).Sorted (· ≤ ·) := by
    rw [List.Sorted, List.pairwise_append]
    exact ⟨hs, List.pairwise_singleton _ _,
      fun a ha b hb => le_of_lt (by
        rw [List.mem_singleton.mp hb]
        exact hall a ha)⟩
  refine ⟨?_, hall⟩
  rw [dnsCacheVal.merge, if_neg (not_lt.mpr hge)]
  exact List.Sorted.insertionSort_eq happ

theorem merge_names_cases (v : dnsCacheVal) (name : GoString)
    (hs : v.names.Sorted (· ≤ ·)) :
    (v.merge name).names = v.names ∨
      ((v.merge name).names = v.names ++ [name] ∧ ∀ x ∈ v.names, x < name) := by
  by_cases h : searchStrings v.names name < v.names.length
  · left
    rw [merge_eq_self v name h]
  · right
    exact merge_names_append hs (not_lt.mp h)

theorem merge_names_sorted {v : dnsCacheVal} (name : GoString)
    (hs : v.names.Sorted (· < ·)) : ((v.merge name).names).Sorted (· < ·) := by
  have hsle : v.names.Sorted (· ≤ ·) := hs.imp (fun h => le_of_lt h)
  rcases merge_names_cases v name hsle with h | ⟨h, hall⟩
  · rw [h]
    exact hs
  · rw [h, List.Sorted, List.pairwise_append]
    exact ⟨hs, List.pairwise_singleton _ _,
      fun a ha b hb => by
        rw [List.mem_singleton.mp hb]
        exact hall a ha⟩

theorem merge_idem_names (v : dnsCacheVal) (name : GoString) (e2 : Int)
    (hs : v.names.Sorted (· ≤ ·)) :
    ((dnsCacheVal.mk (v.merge name).names e2).merge name).names =
      (v.merge name).names := by
  by_cases hlt : searchStrings v.names name < v.names.length
  · have h1 : v.merge name = v := merge_eq_self v name hlt
    rw [h1]
    have h2 : (dnsCacheVal.mk v.names e2).merge name = dnsCacheVal.mk v.names e2 :=
      merge_eq_self _ name hlt
    rw [h2]
  · push_neg at hlt
    obtain ⟨hm, hall⟩ := merge_names_append hs hlt
    have happ : (v.names ++ [name]).Sorted (· ≤ ·) := by
      rw [List.Sorted, List.pairwise_append]
      exact ⟨hs, List.pairwise_singleton _ _,
        fun a ha b hb => le_of_lt (by
          rw [List.mem_singleton.mp hb]
          exact hall a ha)⟩
    rw [hm]
    have hmem : name ∈ v.names ++ [name] := by simp
    have hfix : (dnsCacheVal.mk (v.names ++ [name]) e2).merge name =
        dnsCacheVal.mk (v.names ++ [name]) e2 := merge_of_mem happ hmem
    rw [hfix]

/-! ### `Add` loop lemmas -/

theorem addAddr_findVal_self (name : GoString) (exp : Int)
    (d : List (Address × dnsCacheVal)) (a : Address) :
    findVal (addAddr name exp d a) a =
      some (addStep name exp (findVal d a)) := by
  cases h : findVal d a <;> simp [addAddr, h, addStep, findVal_updateVal_self]

theorem addAddr_findVal_ne (name : GoString) (exp : Int)
    (d : List (Address × dnsCacheVal)) {a x : Address} (h : x ≠ a) :
    findVal (addAddr name exp d a) x = findVal d x := by
  cases hf : findVal d a <;> simp [addAddr, hf, findVal_updateVal_ne _ _ h]

theorem foldl_addAddr_findVal (name : GoString) (exp : Int) :
    ∀ (ips : List Address) (d : List (Address × dnsCacheVal)) (x : Address),
      ips.Nodup →
      findVal (ips.foldl (addAddr name exp) d) x =
        if x ∈ ips then some (addStep name exp (findVal d x))
        else findVal d x := by
  intro ips
  induction ips with
  | nil =>
    intro d x _
    simp
  | cons a rest ih =>
    intro d x hnd
    rw [List.nodup_cons] at hnd
    simp only [List.foldl_cons]
    by_cases hx : x = a
    · subst hx
      rw [ih _ _ hnd.2, if_neg hnd.1, addAddr_findVal_self,
        if_pos (List.mem_cons_self x rest)]
    · rw [ih _ _ hnd.2, addAddr_findVal_ne _ _ _ hx]
      by_cases hxr : x ∈ rest
      · rw [if_pos hxr, if_pos (List.mem_cons_of_mem _ hxr)]
      · rw [if_neg hxr, if_neg (by simp [hx, hxr])]

theorem addStep_names_sorted (name : GoString) (exp : Int)
    {o : Option dnsCacheVal} (ho : ∀ v, o = some v → v.names.Sorted (· < ·)) :
    (addStep name exp o).names.Sorted (· < ·) := by
  cases o with
  | none => exact List.pairwise_singleton _ _
  | some v => exact merge_names_sorted name (ho v rfl)

theorem foldl_addAddr_good (name : GoString) (exp : Int)
    (ips : List Address) (d : List (Address × dnsCacheVal))
    (hips : ips.Nodup) (hg : GoodData d) :
    GoodData (ips.foldl (addAddr name exp) d) := by
  intro a v hfind
  rw [foldl_addAddr_findVal name exp ips d a hips] at hfind
  by_cases ha : a ∈ ips
  · rw [if_pos ha] at hfind
    simp only [Option.some.injEq] at hfind
    subst hfind
    exact addStep_names_sorted name exp (fun w hw => hg a w hw)
  · rw [if_neg ha] at hfind
    exact hg a v hfind

theorem addStep_idem_names (name : GoString) (e1 e2 : Int)
    (o : Option dnsCacheVal) (ho : ∀ v, o = some v → v.names.Sorted (· ≤ ·)) :
    (addStep name e2 (some (addStep name e1 o))).names =
      (addStep name e1 o).names := by
  cases o with
  | none =>
    show ((dnsCacheVal.mk [name] e2).merge name).names = [name]
    rw [@merge_of_mem (dnsCacheVal.mk [name] e2) name
      (List.pairwise_singleton _ _) (by simp)]
  | some v =>
    exact merge_idem_names (dnsCacheVal.mk v.names e1) name e2 (ho v rfl)

/-! ### Claim theorems -/

/-- C1 counterexample: with `size = 1` and one entry at address `5`, the
cache is at capacity; `Add` of a translation whose only address `5` is
already present is rejected outright — it returns `false` and the entry's
expiration stays `10` instead of being refreshed to `now + ttl = 160` —
contradicting the claim that updates to existing keys still succeed at
capacity. -/
theorem add_at_capacity_existing_counterexample :
    (reverseDNSCache.mk [(5, dnsCacheVal.mk [7] 10)] 60 1 0 0).Add
        (some (translation.mk 9 [5])) 100 =
      (reverseDNSCache.mk [(5, dnsCacheVal.mk [7] 10)] 60 1 0 0, false) ∧
    findVal (reverseDNSCache.mk [(5, dnsCacheVal.mk [7] 10)] 60 1 0 0).data 5 =
      some (dnsCacheVal.mk [7] 10) ∧
    (100 : Int) + (reverseDNSCache.mk [(5, dnsCacheVal.mk [7] 10)] 60 1 0 0).ttl
      ≠ 10 := by
  refine ⟨by decide, by decide, by decide⟩

/-- C1 (amended): once the cache holds at least `capacity` entries, `Add`
stores nothing at all: any translation — whether its addresses are new or
already present — is rejected, the call returns `false`, the entry count
does not grow and no expiration is refreshed. -/
theorem add_at_capacity_rejects_all (c : reverseDNSCache)
    (t : Option translation) (now : Int) (h : c.size ≤ c.data.length) :
    c.Add t now = (c, false) := by
  cases t with
  | none => rfl
  | some t =>
    simp only [reverseDNSCache.Add]
    rw [if_pos h]

/-- Witness for C1's amended theorem at a concrete full cache. -/
theorem add_at_capacity_rejects_all_witness :
    (reverseDNSCache.mk [(5, dnsCacheVal.mk [7] 10)] 60 1 0 0).Add
        (some (translation.mk 9 [5, 6])) 100 =
      (reverseDNSCache.mk [(5, dnsCacheVal.mk [7] 10)] 60 1 0 0, false) :=
  add_at_capacity_rejects_all _ _ _ (by decide)

/-- C2: an entry whose stored expiration is `t0 + ttl` (i.e. last touched
at `t0`) is removed by the sweep run at `t` exactly when `t0 + 2*ttl ≤ t`;
in particular it is still present whenever `t < t0 + 2*ttl`, including at
`t = t0 + 1.5*ttl`. -/
theorem expire_two_ttl_law (c : reverseDNSCache) (addr : Address)
    (val : dnsCacheVal) (t0 : Int)
    (hk : (c.data.map Prod.fst).Nodup)
    (hfind : findVal c.data addr = some val)
    (hexp : val.expiration = t0 + c.ttl) :
    (∀ t, findVal ((c.expire t).data) addr = none ↔ t0 + 2 * c.ttl ≤ t) ∧
    (∀ t, t < t0 + 2 * c.ttl → findVal ((c.expire t).data) addr = some val) ∧
    (0 < c.ttl → ∀ t, 2 * t = 2 * t0 + 3 * c.ttl →
      findVal ((c.expire t).data) addr = some val) := by
  have key : ∀ t : Int, findVal ((c.expire t).data) addr =
      if val.expiration > t - c.ttl then some val else none := by
    intro t
    have h := findVal_filter c.data
      (fun p => decide (p.2.expiration > t - c.ttl)) hk hfind
    simpa [reverseDNSCache.expire] using h
  refine ⟨?_, ?_, ?_⟩
  · intro t
    constructor
    · intro hnone
      rw [key t, hexp] at hnone
      by_contra hlt
      push_neg at hlt
      rw [if_pos (by omega)] at hnone
      exact Option.noConfusion hnone
    · intro hle
      rw [key t, hexp, if_neg (by omega)]
  · intro t hlt
    rw [key t, hexp, if_pos (by omega)]
  · intro hpos t ht
    rw [key t, hexp, if_pos (by omega)]

/-- Witness for C2 at a concrete entry touched at `t0 = 0` with
`ttl = 60`: present at the sweep at `t = 119` (and at `t = 90 = 1.5*ttl`),
absent at the sweep at `t = 120 = 2*ttl`. -/
theorem expire_two_ttl_law_witness :
    findVal (((reverseDNSCache.mk [(5, dnsCacheVal.mk [7] 60)] 60 10 0 0).expire
        120).data) 5 = none ∧
    findVal (((reverseDNSCache.mk [(5, dnsCacheVal.mk [7] 60)] 60 10 0 0).expire
        119).data) 5 = some (dnsCacheVal.mk [7] 60) ∧
    findVal (((reverseDNSCache.mk [(5, dnsCacheVal.mk [7] 60)] 60 10 0 0).expire
        90).data) 5 = some (dnsCacheVal.mk [7] 60) := by
  have h := expire_two_ttl_law
    (reverseDNSCache.mk [(5, dnsCacheVal.mk [7] 60)] 60 10 0 0) 5
    (dnsCacheVal.mk [7] 60) 0 (by decide) (by decide) (by decide)
  exact ⟨(h.1 120).mpr (by decide), h.2.1 119 (by decide),
    h.2.2 (by decide) 90 (by decide)⟩

/-- C3 (code bug): `merge` uses `sort.SearchStrings(names, name) <
len(names)` as its membership test, without comparing the element at the
returned index. Merging the absent name `1` into the entry `{names: [2]}`
returns index `0 < 1`, so the name is treated as present and silently
dropped: the list stays `[2]` although `1` is absent, contradicting
"appends the name exactly when it is absent". -/
theorem merge_drops_absent_name :
    dnsCacheVal.merge (dnsCacheVal.mk [2] 0) 1 = dnsCacheVal.mk [2] 0 ∧
    (1 : GoString) ∉ [(2 : GoString)] ∧
    searchStrings [2] 1 = 0 := by
  refine ⟨by decide, by decide, by decide⟩

/-- C4 counterexample: below capacity, `Add` of a translation whose
address set is empty returns `true` even though nothing is stored,
contradicting the claim that it returns `false` whenever the translation's
address set is empty. -/
theorem add_empty_translation_counterexample :
    (reverseDNSCache.mk [] 60 1 0 0).Add (some (translation.mk 9 [])) 0 =
      (reverseDNSCache.mk [] 60 1 0 0, true) ∧
    (translation.mk 9 []).ips = [] := by
  refine ⟨by decide, by decide⟩

/-- C4 (amended): `Add` returns `false` exactly when the translation is
nil or the cache is already at capacity; in every other case it returns
`true`, even when the translation's address set is empty and nothing is
stored. -/
theorem add_false_iff (c : reverseDNSCache) (t : Option translation)
    (now : Int) :
    (c.Add t now).2 = false ↔ (t = none ∨ c.size ≤ c.data.length) := by
  cases t with
  | none => simp [reverseDNSCache.Add]
  | some t =>
    by_cases h : c.data.length ≥ c.size
    · simp only [reverseDNSCache.Add]
      rw [if_pos h]
      simp [h]
    · simp only [reverseDNSCache.Add]
      rw [if_neg h]
      simp [h]

/-- C5: below capacity, adding a translation whose addresses are distinct
and not yet cached succeeds, and a later pre-expiry `Get` on a connection
whose source (resp. destination) is one of those addresses returns a name
list containing the translation's name on that side. -/
theorem get_after_add_returns_name (c : reverseDNSCache) (t : translation)
    (now now2 : Int) (addr : Address) (conn : ConnectionStats)
    (hcap : c.data.length < c.size)
    (hnd : t.ips.Nodup)
    (hfresh : ∀ a ∈ t.ips, findVal c.data a = none)
    (haddr : addr ∈ t.ips)
    (hlater : now ≤ now2)
    (hpre : now2 < now + c.ttl) :
    (c.Add (some t) now).2 = true ∧
    (conn.Source = addr → ∃ l, ((c.Add (some t) now).1.Get [conn] now2).1.map
      NamePair.Source = [some l] ∧ t.name ∈ l) ∧
    (conn.Dest = addr → ∃ l, ((c.Add (some t) now).1.Get [conn] now2).1.map
      NamePair.Dest = [some l] ∧ t.name ∈ l) := by
  have hne : ¬ (c.data.length ≥ c.size) := not_le.mpr hcap
  have hc1 : (c.Add (some t) now).1.data =
      t.ips.foldl (addAddr t.name (now + c.ttl)) c.data := by
    simp only [reverseDNSCache.Add]
    rw [if_neg hne]
  have hfa : findVal ((c.Add (some t) now).1.data) addr =
      some (dnsCacheVal.mk [t.name] (now + c.ttl)) := by
    rw [hc1, foldl_addAddr_findVal t.name (now + c.ttl) t.ips c.data addr hnd,
      if_pos haddr, hfresh addr haddr]
    rfl
  have hpairs : ((c.Add (some t) now).1.Get [conn] now2).1 =
      [NamePair.mk
        ((findVal ((c.Add (some t) now).1.data) conn.Source).map
          dnsCacheVal.names)
        ((findVal ((c.Add (some t) now).1.data) conn.Dest).map
          dnsCacheVal.names)] := by
    show (getLoop (now2 + (c.Add (some t) now).1.ttl) [conn]
      ((c.Add (some t) now).1.data)).1 = _
    rw [getLoop_pairs]
    rfl
  refine ⟨?_, ?_, ?_⟩
  · simp only [reverseDNSCache.Add]
    rw [if_neg hne]
  · intro hs
    refine ⟨[t.name], ?_, by simp⟩
    rw [hpairs, hs]
    simp [hfa]
  · intro hd
    refine ⟨[t.name], ?_, by simp⟩
    rw [hpairs, hd]
    simp [hfa]

/-- Witness for C5 at a concrete empty cache and a two-address
translation. -/
theorem get_after_add_returns_name_witness :
    ((reverseDNSCache.mk [] 60 10 0 0).Add (some (translation.mk 9 [5, 6]))
      0).2 = true :=
  (get_after_add_returns_name (reverseDNSCache.mk [] 60 10 0 0)
    (translation.mk 9 [5, 6]) 0 10 5 (ConnectionStats.mk 5 8) (by decide)
    (by decide) (by decide) (by decide) (by decide) (by decide)).1

/-- C6: on a cache whose name lists are sorted and duplicate-free, adding
the same translation twice leaves exactly the name lists produced by adding
it once, and no entry's name list ever holds a duplicate. -/
theorem add_twice_names_idempotent (c : reverseDNSCache) (t : translation)
    (now1 now2 : Int)
    (hg : GoodData c.data)
    (hnd : t.ips.Nodup)
    (hcap : c.data.length < c.size) :
    (∀ x, (findVal (((c.Add (some t) now1).1.Add (some t) now2).1.data)
        x).map dnsCacheVal.names =
      (findVal ((c.Add (some t) now1).1.data) x).map dnsCacheVal.names) ∧
    (∀ x v, findVal (((c.Add (some t) now1).1.Add (some t) now2).1.data) x =
      some v → v.names.Nodup) := by
  have hne : ¬ (c.data.length ≥ c.size) := not_le.mpr hcap
  obtain ⟨c1, hc1eq⟩ : ∃ c1, (c.Add (some t) now1).1 = c1 := ⟨_, rfl⟩
  have hc1 : c1.data = t.ips.foldl (addAddr t.name (now1 + c.ttl)) c.data := by
    rw [← hc1eq]
    simp only [reverseDNSCache.Add]
    rw [if_neg hne]
  have hg1 : GoodData c1.data := by
    rw [hc1]
    exact foldl_addAddr_good _ _ _ _ hnd hg
  rw [hc1eq]
  by_cases h2 : c1.data.length ≥ c1.size
  · have hc2 : (c1.Add (some t) now2).1 = c1 := by
      simp only [reverseDNSCache.Add]
      rw [if_pos h2]
    rw [hc2]
    exact ⟨fun x => rfl, fun x v hv => (hg1 x v hv).nodup⟩
  · have hc2 : (c1.Add (some t) now2).1.data =
        t.ips.foldl (addAddr t.name (now2 + c1.ttl)) c1.data := by
      simp only [reverseDNSCache.Add]
      rw [if_neg h2]
    constructor
    · intro x
      rw [hc2, foldl_addAddr_findVal _ _ _ _ _ hnd]
      by_cases hx : x ∈ t.ips
      · rw [if_pos hx, hc1, foldl_addAddr_findVal _ _ _ _ _ hnd, if_pos hx]
        simp only [Option.map_some']
        exact congrArg some (addStep_idem_names t.name _ _ (findVal c.data x)
          (fun v hv => (hg x v hv).imp (fun h => le_of_lt h)))
      · rw [if_neg hx]
    · intro x v hv
      rw [hc2] at hv
      exact ((foldl_addAddr_good _ _ _ _ hnd hg1) x v hv).nodup

/-- Witness for C6 at a concrete empty cache. -/
theorem add_twice_names_idempotent_witness :
    (findVal ((((reverseDNSCache.mk [] 60 10 0 0).Add
        (some (translation.mk 9 [5])) 0).1.Add
        (some (translation.mk 9 [5])) 3).1.data) 5).map dnsCacheVal.names =
    (findVal (((reverseDNSCache.mk [] 60 10 0 0).Add
        (some (translation.mk 9 [5])) 0).1.data) 5).map dnsCacheVal.names :=
  (add_twice_names_idempotent (reverseDNSCache.mk [] 60 10 0 0)
    (translation.mk 9 [5]) 0 3 (fun a v h => nomatch h) (by decide)
    (by decide)).1 5

/-- C7: `Get` returns one `NamePair` per input connection, in input order:
the output is exactly the input list mapped through the per-connection
lookup of source and destination names. -/
theorem get_order_preserving (c : reverseDNSCache)
    (conns : List ConnectionStats) (now : Int) :
    (c.Get conns now).1.length = conns.length ∧
    (c.Get conns now).1 = conns.map (fun conn =>
      NamePair.mk ((findVal c.data conn.Source).map dnsCacheVal.names)
        ((findVal c.data conn.Dest).map dnsCacheVal.names)) := by
  cases conns with
  | nil => exact ⟨rfl, rfl⟩
  | cons conn rest =>
    have h := getLoop_pairs (now + c.ttl) (conn :: rest) c.data
    constructor
    · show (getLoop (now + c.ttl) (conn :: rest) c.data).1.length = _
      rw [h, List.length_map]
    · exact h

/-- C8: `Get` only refreshes the expirations of entries whose address is a
source or destination of some input connection, setting them to
`now + ttl`; every name list and every untouched entry is unchanged, and
the returned list of a hit is a copy of the stored entry's names. -/
theorem get_frame_effect (c : reverseDNSCache)
    (conns : List ConnectionStats) (now : Int) :
    (∀ x, findVal ((c.Get conns now).2).data x =
      if conns.any (fun conn => touchesAddr conn x) then
        (findVal c.data x).map (fun v => dnsCacheVal.mk v.names (now + c.ttl))
      else findVal c.data x) ∧
    (c.Get conns now).1.map NamePair.Source =
      conns.map (fun conn => (findVal c.data conn.Source).map
        dnsCacheVal.copy) ∧
    (c.Get conns now).1.map NamePair.Dest =
      conns.map (fun conn => (findVal c.data conn.Dest).map
        dnsCacheVal.copy) := by
  cases conns with
  | nil => exact ⟨fun x => by simp [reverseDNSCache.Get], rfl, rfl⟩
  | cons conn rest =>
    refine ⟨fun x => ?_, ?_, ?_⟩
    · show findVal (getLoop (now + c.ttl) (conn :: rest) c.data).2.1 x = _
      rw [getLoop_findVal]
    · show ((getLoop (now + c.ttl) (conn :: rest) c.data).1).map
        NamePair.Source = _
      rw [getLoop_pairs, List.map_map]
      rfl
    · show ((getLoop (now + c.ttl) (conn :: rest) c.data).1).map
        NamePair.Dest = _
      rw [getLoop_pairs, List.map_map]
      rfl

/-- C9: a tick of the stats-polling loop on which reading the kernel
socket stats fails leaves the accumulated counters and the stored
baselines untouched, so the next successful tick accumulates its delta
against the last successfully recorded baselines exactly as if the failed
tick had not happened. -/
theorem pollStats_failed_sample_skipped (st : snooperStatsState)
    (src1 src2 : sourceStatsData) (ss : socketStatsData) :
    pollStatsTick st src1 none = st ∧
    pollStatsTick (pollStatsTick st src1 none) src2 (some ss) =
      pollStatsTick st src2 (some ss) ∧
    (pollStatsTick st src2 (some ss)).polls =
      st.polls + (src2.Polls - st.prevPolls) ∧
    (pollStatsTick st src2 (some ss)).processed =
      st.processed + (src2.Packets - st.prevProcessed) ∧
    (pollStatsTick st src2 (some ss)).captured =
      st.captured + (ss.Packets - st.prevCaptured) ∧
    (pollStatsTick st src2 (some ss)).dropped =
      st.dropped + (ss.Drops - st.prevDropped) :=
  ⟨rfl, rfl, rfl, rfl, rfl, rfl⟩

/-- C10: over one `Get` call, the `lookups` counter grows by the number of
input connections while the `resolved` counter grows by the number of
connections whose destination address is in the cache; a connection whose
source resolves but whose destination does not contributes to `lookups`
but never to `resolved`. -/
theorem get_resolved_dest_only (c : reverseDNSCache)
    (conns : List ConnectionStats) (now : Int) :
    ((c.Get conns now).2).lookups = c.lookups + conns.length ∧
    ((c.Get conns now).2).resolved = c.resolved +
      conns.countP (fun conn => (findVal c.data conn.Dest).isSome) := by
  cases conns with
  | nil => exact ⟨by simp [reverseDNSCache.Get], by simp [reverseDNSCache.Get]⟩
  | cons conn rest =>
    constructor
    · rfl
    · show c.resolved + (getLoop (now + c.ttl) (conn :: rest) c.data).2.2 = _
      rw [getLoop_resolved]

end DnsCache
